import Mathlib

/-!
Verification of the block construction and proof-of-work sealing algorithm
of `src/block.rs` (the `Block` type, its constructor `Block::new`, the
sealing loop `Block::calculate_hash`, the accessors `hash()` / `index()`,
and `Block::default`).

The embedding is shallow:

* Rust strings are `List Char`; `format!` fragments are modelled by
  functions producing `List Char`.
* `format!("{}", n)` on an unsigned integer renders the decimal digits,
  modelled by `natRepr` (Lean core's `Nat.repr`, which is exactly the
  decimal most-significant-digit-first rendering).
* `format!("{:?}", a)` on a byte array `[u8; N]` renders
  `[b0, b1, ...]` (elements separated by a comma and a space),
  modelled by `u8ArrayDebug`.
* `format!("{:?}", s)` on a `String` renders the string surrounded by
  double quotes, with every inner quote escaped as `\"` and every
  backslash escaped as `\\`; Rust's `escape_debug` additionally escapes
  control and non-printable characters, but no such character ever occurs
  in the strings built by this program (they consist of digits, commas,
  spaces, square brackets, quotes and backslashes), so `escChar` models
  the reachable fragment exactly.
* The SHA-512 primitive from the external `sha2` crate is an opaque
  collaborator: it is a parameter `H : List Char → List Nat` of every
  operation.  Its contract (per the crate and the spec) is a fixed
  64-byte output, carried as an explicit hypothesis where needed.
* `chrono::DateTime<Utc>` values are opaque; a block's `time` field is
  modelled by the `List Char` that `format!("{:?}", time)` renders,
  injected as a parameter (the spec's clock-injection reading of
  `Utc::now()`).
* The possibly endless `while` loop of `calculate_hash` is embedded with
  explicit fuel: `none` models non-termination within the given fuel,
  `some (Except.error _)` models the `expect` panic, and
  `some (Except.ok b)` models normal return of the sealed block.
-/

namespace BlockchainSpec

/-- Decimal rendering of a natural number, as Rust's `format!("{}", n)`
produces for `usize` / `u128` values: most significant digit first, no
leading zeroes, `"0"` for zero.  `Nat.repr` is Lean core's decimal
rendering. -/
def natRepr (n : Nat) : List Char :=
  (Nat.repr n).data

/-- The comma-and-space separated element list inside Rust's
`format!("{:?}", a)` rendering of a byte array. -/
def u8ArrayDebugInner : List Nat → List Char
  | [] => []
  | [x] => natRepr x
  | x :: y :: xs => natRepr x ++ ',' :: ' ' :: u8ArrayDebugInner (y :: xs)

/-- Rust's `format!("{:?}", a)` rendering of a byte array `[u8; N]`:
`[b0, b1, ...]`. -/
def u8ArrayDebug (h : List Nat) : List Char :=
  '[' :: u8ArrayDebugInner h ++ [']']

/-- Per-character escaping of Rust's `Debug` rendering of a string:
a quote becomes `\"`, a backslash becomes `\\`, every other character
reachable in this program is printable ASCII and is kept as is. -/
def escChar (c : Char) : List Char :=
  if c = '"' then ['\\', '"']
  else if c = '\\' then ['\\', '\\']
  else [c]

/-- Rust's `format!("{:?}", s)` rendering of a `String`: the escaped
characters surrounded by double quotes. -/
def strDebug (s : List Char) : List Char :=
  '"' :: s.flatMap escChar ++ ['"']

/-- Modelled from the spec: `crate::transaction::Transaction` lives outside
`src/`; the sealing core consumes only the fixed-length (64-byte) digest
returned by `t.hash()`, so a transaction is represented by that digest. -/
structure Transaction where
  hash : List Nat
deriving DecidableEq

/-- The transaction digest accumulator of `Block::calculate_hash`:
`self.transactions.iter().fold(String::new(), |acc, t| format!("{:?}{:?}", acc, t.hash()))`. -/
def transactionsHashes (txs : List Transaction) : List Char :=
  txs.foldl (fun acc t => strDebug acc ++ u8ArrayDebug t.hash) []

/-- The `Block` struct of `src/block.rs`.  `index : usize` and
`nonce : u128` are naturals (the nonce only ever grows by 1 from 0, far
from the `u128` bound), the two 64-byte hashes are byte lists, and
`time` is the opaque `Debug` rendering of the captured timestamp. -/
structure Block where
  index : Nat
  prev_hash : List Nat
  transactions : List Transaction
  nonce : Nat
  time : List Char
  hash : List Nat
deriving DecidableEq

/-- The digest-input string of one sealing attempt:
`format!("{}{:?}{}{:?}{}", self.index, self.prev_hash, transactions_hashes, self.time, self.nonce)`. -/
def digestInput (index : Nat) (prev_hash : List Nat) (txs : List Transaction)
    (time : List Char) (nonce : Nat) : List Char :=
  natRepr index ++ u8ArrayDebug prev_hash ++ transactionsHashes txs ++ time ++ natRepr nonce

/-- The digest-input string a block `b` hashes at nonce `n`. -/
def Block.dig (b : Block) (n : Nat) : List Char :=
  digestInput b.index b.prev_hash b.transactions b.time n

/-- `Block::calculate_hash`, fuel-indexed.  Each iteration of
`while self.hash[0..2] != [69, 69]` recomputes the digest input at the
current nonce, hashes it with the SHA-512 primitive `H`, stores the
result (aborting as the source's `expect` does if the primitive breaks
its 64-byte contract), and increments the nonce.  `none` means the fuel
ran out before the loop exited. -/
def calculate_hash (H : List Char → List Nat) : Nat → Block → Option (Except String Block)
  | 0, _ => none
  | fuel + 1, b =>
    if b.hash.take 2 = [69, 69] then some (Except.ok b)
    else
      let out := H (b.dig b.nonce)
      if out.length = 64 then
        calculate_hash H fuel { b with hash := out, nonce := b.nonce + 1 }
      else
        some (Except.error "Error generating the SHA-512 hash of the block.")

/-- The block value `Block::new` builds before sealing: the given index,
previous hash and transactions, nonce `0`, the captured time, and an
all-zero 64-byte hash. -/
def Block.init (index : Nat) (prev_hash : List Nat) (transactions : List Transaction)
    (time : List Char) : Block :=
  { index := index, prev_hash := prev_hash, transactions := transactions,
    nonce := 0, time := time, hash := List.replicate 64 0 }

/-- `Block::new`: build the initial block and run the sealing loop. -/
def Block.new (H : List Char → List Nat) (fuel : Nat) (index : Nat) (prev_hash : List Nat)
    (transactions : List Transaction) (time : List Char) : Option (Except String Block) :=
  calculate_hash H fuel (Block.init index prev_hash transactions time)

/-- `Block::default`: `Block::new(0, [0; 64], Vec::new())`. -/
def Block.defaultBlock (H : List Char → List Nat) (fuel : Nat) (time : List Char) :
    Option (Except String Block) :=
  Block.new H fuel 0 (List.replicate 64 0) [] time

/-- The accessor `Block::hash(&self) -> [u8; 64]`: returns a copy of the
`hash` field. -/
def Block.hashAccessor (b : Block) : List Nat :=
  b.hash

/-- The accessor `Block::index(&self) -> usize`: returns a copy of the
`index` field. -/
def Block.indexAccessor (b : Block) : Nat :=
  b.index

instance {α β : Type} [DecidableEq α] [DecidableEq β] : DecidableEq (Except α β) := fun x y =>
  match x, y with
  | .ok a, .ok b => if h : a = b then isTrue (by rw [h]) else isFalse (by simp [h])
  | .ok _, .error _ => isFalse (by simp)
  | .error _, .ok _ => isFalse (by simp)
  | .error e, .error f => if h : e = f then isTrue (by rw [h]) else isFalse (by simp [h])

/-! ### Properties of the decimal rendering `natRepr` -/

/-- Value of a digit string read back as a decimal number. -/
def decVal (cs : List Char) : Nat :=
  cs.foldl (fun a c => 10 * a + (c.toNat - 48)) 0

lemma digitChar_toNat {m : Nat} (h : m < 10) : (Nat.digitChar m).toNat = 48 + m := by
  interval_cases m <;> decide

lemma digitChar_isDigit {m : Nat} (h : m < 10) : (Nat.digitChar m).isDigit = true := by
  interval_cases m <;> decide

lemma toDigitsCore_append_acc :
    ∀ (fuel n : Nat) (acc : List Char),
      Nat.toDigitsCore 10 fuel n acc = Nat.toDigitsCore 10 fuel n [] ++ acc := by
  intro fuel
  induction fuel with
  | zero => intro n acc; simp [Nat.toDigitsCore]
  | succ fuel ih =>
    intro n acc
    simp only [Nat.toDigitsCore]
    by_cases h : n / 10 = 0
    · simp [h]
    · simp only [h, if_false]
      rw [ih (n / 10) [Nat.digitChar (n % 10)], ih (n / 10) (Nat.digitChar (n % 10) :: acc)]
      simp

lemma decVal_append_singleton (xs : List Char) (c : Char) :
    decVal (xs ++ [c]) = 10 * decVal xs + (c.toNat - 48) := by
  simp [decVal, List.foldl_append]

lemma decVal_toDigitsCore :
    ∀ (fuel n : Nat), n < fuel → decVal (Nat.toDigitsCore 10 fuel n []) = n := by
  intro fuel
  induction fuel with
  | zero => intro n h; omega
  | succ fuel ih =>
    intro n h
    simp only [Nat.toDigitsCore]
    by_cases h0 : n / 10 = 0
    · have hm : n % 10 < 10 := Nat.mod_lt _ (by omega)
      simp only [h0, if_true, decVal, List.foldl]
      rw [digitChar_toNat hm]
      omega
    · have hdiv : n / 10 < fuel := by omega
      have hm : n % 10 < 10 := Nat.mod_lt _ (by omega)
      simp only [h0, if_false]
      rw [toDigitsCore_append_acc, decVal_append_singleton, ih (n / 10) hdiv,
        digitChar_toNat hm]
      omega

lemma natRepr_eq_toDigitsCore (n : Nat) : natRepr n = Nat.toDigitsCore 10 (n + 1) n [] := rfl

lemma decVal_natRepr (n : Nat) : decVal (natRepr n) = n := by
  rw [natRepr_eq_toDigitsCore]
  exact decVal_toDigitsCore (n + 1) n (Nat.lt_succ_self n)

lemma natRepr_injective {m n : Nat} (h : natRepr m = natRepr n) : m = n := by
  have := decVal_natRepr m
  rw [h, decVal_natRepr] at this
  omega

lemma toDigitsCore_isDigit :
    ∀ (fuel n : Nat) (acc : List Char), (∀ c ∈ acc, c.isDigit = true) →
      ∀ c ∈ Nat.toDigitsCore 10 fuel n acc, c.isDigit = true := by
  intro fuel
  induction fuel with
  | zero => intro n acc hacc; simpa [Nat.toDigitsCore] using hacc
  | succ fuel ih =>
    intro n acc hacc
    have hm : n % 10 < 10 := Nat.mod_lt _ (by omega)
    simp only [Nat.toDigitsCore]
    by_cases h0 : n / 10 = 0
    · simp only [h0, if_true]
      intro c hc
      rcases List.mem_cons.mp hc with hc | hc
      · subst hc; exact digitChar_isDigit hm
      · exact hacc c hc
    · simp only [h0, if_false]
      refine ih (n / 10) _ ?_
      intro c hc
      rcases List.mem_cons.mp hc with hc | hc
      · subst hc; exact digitChar_isDigit hm
      · exact hacc c hc

lemma natRepr_isDigit (n : Nat) : ∀ c ∈ natRepr n, c.isDigit = true := by
  rw [natRepr_eq_toDigitsCore]
  exact toDigitsCore_isDigit (n + 1) n [] (by intro c hc; simp at hc)

lemma toDigitsCore_ne_nil (fuel n : Nat) :
    Nat.toDigitsCore 10 (fuel + 1) n [] ≠ [] := by
  simp only [Nat.toDigitsCore]
  by_cases h0 : n / 10 = 0
  · simp [h0]
  · simp only [h0, if_false]
    rw [toDigitsCore_append_acc]
    simp

lemma natRepr_ne_nil (n : Nat) : natRepr n ≠ [] := by
  rw [natRepr_eq_toDigitsCore]
  exact toDigitsCore_ne_nil n n

/-! ### Splitting concatenations at a character-class boundary -/

/-- If two concatenations agree, the left parts consist of characters
satisfying `p`, and both right parts start with a character violating
`p` (or are empty), then the parts agree. -/
lemma splitAt_marker (p : Char → Bool) :
    ∀ (a1 a2 r1 r2 : List Char), (∀ c ∈ a1, p c = true) → (∀ c ∈ a2, p c = true) →
      (∀ c, r1.head? = some c → p c = false) → (∀ c, r2.head? = some c → p c = false) →
      a1 ++ r1 = a2 ++ r2 → a1 = a2 ∧ r1 = r2 := by
  intro a1
  induction a1 with
  | nil =>
    intro a2 r1 r2 _ ha2 hr1 _ h
    cases a2 with
    | nil => exact ⟨rfl, by simpa using h⟩
    | cons c a2' =>
      exfalso
      simp only [List.nil_append, List.cons_append] at h
      have hc : r1.head? = some c := by rw [h]; rfl
      have := hr1 c hc
      have := ha2 c (List.mem_cons_self c a2')
      simp_all
  | cons c1 a1' ih =>
    intro a2 r1 r2 ha1 ha2 hr1 hr2 h
    cases a2 with
    | nil =>
      exfalso
      simp only [List.cons_append, List.nil_append] at h
      have hc : r2.head? = some c1 := by rw [← h]; rfl
      have := hr2 c1 hc
      have := ha1 c1 (List.mem_cons_self c1 a1')
      simp_all
    | cons c2 a2' =>
      simp only [List.cons_append, List.cons.injEq] at h
      obtain ⟨hc, h⟩ := h
      have := ih a2' r1 r2 (fun c hc => ha1 c (List.mem_cons_of_mem _ hc))
        (fun c hc => ha2 c (List.mem_cons_of_mem _ hc)) hr1 hr2 h
      exact ⟨by rw [hc, this.1], this.2⟩

/-- Two equal concatenations each led by a decimal rendering split into
an equal number and equal remainders, provided neither remainder starts
with a digit. -/
lemma natRepr_cancel {m n : Nat} {r1 r2 : List Char}
    (h1 : ∀ c, r1.head? = some c → c.isDigit = false)
    (h2 : ∀ c, r2.head? = some c → c.isDigit = false)
    (h : natRepr m ++ r1 = natRepr n ++ r2) : m = n ∧ r1 = r2 := by
  have := splitAt_marker Char.isDigit (natRepr m) (natRepr n) r1 r2
    (natRepr_isDigit m) (natRepr_isDigit n) h1 h2 h
  exact ⟨natRepr_injective this.1, this.2⟩

lemma u8ArrayDebugInner_cons (y : Nat) (ys : List Nat) :
    ∃ t, u8ArrayDebugInner (y :: ys) = natRepr y ++ t := by
  cases ys with
  | nil => exact ⟨[], by simp [u8ArrayDebugInner]⟩
  | cons z zs => exact ⟨',' :: ' ' :: u8ArrayDebugInner (z :: zs), rfl⟩

/-- Two equal concatenations each led by the inner element list of the
byte-array rendering split into equal byte lists and equal remainders,
provided neither remainder starts with a digit or a comma. -/
lemma u8ArrayDebugInner_cancel :
    ∀ (xs ys : List Nat) (r1 r2 : List Char),
      (∀ c, r1.head? = some c → c.isDigit = false ∧ c ≠ ',') →
      (∀ c, r2.head? = some c → c.isDigit = false ∧ c ≠ ',') →
      u8ArrayDebugInner xs ++ r1 = u8ArrayDebugInner ys ++ r2 → xs = ys ∧ r1 = r2 := by
  intro xs
  induction xs with
  | nil =>
    intro ys r1 r2 hr1 _ h
    cases ys with
    | nil => exact ⟨rfl, by simpa [u8ArrayDebugInner] using h⟩
    | cons y ys' =>
      exfalso
      obtain ⟨t, ht⟩ := u8ArrayDebugInner_cons y ys'
      obtain ⟨d, ds, hds⟩ := List.exists_cons_of_ne_nil (natRepr_ne_nil y)
      simp only [u8ArrayDebugInner, List.nil_append, ht, hds, List.cons_append] at h
      have hd : d.isDigit = true := natRepr_isDigit y d (by rw [hds]; exact List.mem_cons_self _ _)
      have hf := (hr1 d (by rw [h]; rfl)).1
      rw [hd] at hf
      exact Bool.noConfusion hf
  | cons x xs' ih =>
    intro ys r1 r2 hr1 hr2 h
    cases ys with
    | nil =>
      exfalso
      obtain ⟨t, ht⟩ := u8ArrayDebugInner_cons x xs'
      obtain ⟨d, ds, hds⟩ := List.exists_cons_of_ne_nil (natRepr_ne_nil x)
      simp only [u8ArrayDebugInner, List.nil_append, ht, hds, List.cons_append] at h
      have hd : d.isDigit = true := natRepr_isDigit x d (by rw [hds]; exact List.mem_cons_self _ _)
      have hf := (hr2 d (by rw [← h]; rfl)).1
      rw [hd] at hf
      exact Bool.noConfusion hf
    | cons y ys' =>
      cases xs' with
      | nil =>
        cases ys' with
        | nil =>
          simp only [u8ArrayDebugInner] at h
          have := natRepr_cancel (fun c hc => (hr1 c hc).1) (fun c hc => (hr2 c hc).1) h
          exact ⟨by rw [this.1], this.2⟩
        | cons y2 ys'' =>
          exfalso
          simp only [u8ArrayDebugInner, List.append_assoc, List.cons_append] at h
          have hsp := natRepr_cancel (fun c hc => (hr1 c hc).1)
            (fun c hc => by cases Option.some.inj hc; decide) h
          exact (hr1 ',' (by rw [hsp.2]; rfl)).2 rfl
      | cons x2 xs'' =>
        cases ys' with
        | nil =>
          exfalso
          simp only [u8ArrayDebugInner, List.append_assoc, List.cons_append] at h
          have hsp := natRepr_cancel (fun c hc => by cases Option.some.inj hc; decide)
            (fun c hc => (hr2 c hc).1) h
          exact (hr2 ',' (by rw [← hsp.2]; rfl)).2 rfl
        | cons y2 ys'' =>
          simp only [u8ArrayDebugInner, List.append_assoc, List.cons_append] at h
          have hsplit := natRepr_cancel (fun c hc => by cases Option.some.inj hc; decide)
            (fun c hc => by cases Option.some.inj hc; decide) h
          have htail : u8ArrayDebugInner (x2 :: xs'') ++ r1 = u8ArrayDebugInner (y2 :: ys'') ++ r2 := by
            have h2 := hsplit.2
            injection h2 with _ h2
            injection h2 with _ h2
          have := ih (y2 :: ys'') r1 r2 hr1 hr2 htail
          exact ⟨by rw [hsplit.1, this.1], this.2⟩

/-- The byte-array rendering is injective: distinct byte lists render to
distinct strings. -/
lemma u8ArrayDebug_injective {xs ys : List Nat} (h : u8ArrayDebug xs = u8ArrayDebug ys) :
    xs = ys := by
  unfold u8ArrayDebug at h
  injection h with _ h
  have hbr : ∀ c : Char, ([']'] : List Char).head? = some c → c.isDigit = false ∧ c ≠ ',' := by
    intro c hc
    cases Option.some.inj hc
    decide
  exact (u8ArrayDebugInner_cancel xs ys [']'] [']'] hbr hbr h).1

lemma u8ArrayDebugInner_safe :
    ∀ (xs : List Nat), ∀ c ∈ u8ArrayDebugInner xs, c.isDigit = true ∨ c = ',' ∨ c = ' ' := by
  intro xs
  induction xs with
  | nil => intro c hc; simp [u8ArrayDebugInner] at hc
  | cons x xs' ih =>
    intro c hc
    cases xs' with
    | nil =>
      simp only [u8ArrayDebugInner] at hc
      exact Or.inl (natRepr_isDigit x c hc)
    | cons y ys =>
      simp only [u8ArrayDebugInner, List.mem_append, List.mem_cons] at hc
      rcases hc with hc | hc | hc | hc
      · exact Or.inl (natRepr_isDigit x c hc)
      · exact Or.inr (Or.inl hc)
      · exact Or.inr (Or.inr hc)
      · exact ih c hc

/-- No character of the byte-array rendering is a quote or a backslash,
so the `Debug` string escaping leaves it unchanged. -/
lemma u8ArrayDebug_safe (xs : List Nat) :
    ∀ c ∈ u8ArrayDebug xs, c ≠ '"' ∧ c ≠ '\\' := by
  intro c hc
  have hc' : c = '[' ∨ c ∈ u8ArrayDebugInner xs ∨ c = ']' := by
    simpa [u8ArrayDebug, List.mem_cons, List.mem_append, or_assoc] using hc
  rcases hc' with hc' | hc' | hc'
  · subst hc'; decide
  · rcases u8ArrayDebugInner_safe xs c hc' with hd | hd | hd
    · constructor
      · intro he; subst he; simp at hd
      · intro he; subst he; simp at hd
    · subst hd; decide
    · subst hd; decide
  · subst hc'; decide

/-- String escaping is the identity on strings containing no quote and
no backslash. -/
lemma flatMap_escChar_id : ∀ {s : List Char}, (∀ c ∈ s, c ≠ '"' ∧ c ≠ '\\') →
    s.flatMap escChar = s := by
  intro s
  induction s with
  | nil => intro _; rfl
  | cons c s' ih =>
    intro hs
    have hc := hs c (List.mem_cons_self c s')
    have he : escChar c = [c] := by
      unfold escChar
      rw [if_neg hc.1, if_neg hc.2]
    rw [List.flatMap_cons, he, ih (fun d hd => hs d (List.mem_cons_of_mem _ hd))]
    rfl

/-- Closed form of the transaction digest accumulator on a two-element
batch: the outer `Debug` quoting escapes the two quotes introduced by the
inner step, and the two array renderings appear separated by the closing
quote. -/
lemma transactionsHashes_pair (t1 t2 : Transaction) :
    transactionsHashes [t1, t2] =
      '"' :: '\\' :: '"' :: '\\' :: '"' ::
        (u8ArrayDebug t1.hash ++ '"' :: u8ArrayDebug t2.hash) := by
  have h1 := flatMap_escChar_id (u8ArrayDebug_safe t1.hash)
  simp [transactionsHashes, strDebug, List.flatMap_append, h1, escChar]

/-! ### The sealing loop -/

lemma dig_update (b : Block) (o : List Nat) (m n : Nat) :
    Block.dig { b with hash := o, nonce := m } n = Block.dig b n := rfl

lemma calc_ok_pred (H : List Char → List Nat) :
    ∀ (fuel : Nat) (b b' : Block),
      calculate_hash H fuel b = some (Except.ok b') → b'.hash.take 2 = [69, 69] := by
  intro fuel
  induction fuel with
  | zero => intro b b' h; simp [calculate_hash] at h
  | succ fuel ih =>
    intro b b' h
    by_cases hp : b.hash.take 2 = [69, 69]
    · simp only [calculate_hash, hp, if_true, Option.some.injEq] at h
      cases h
      exact hp
    · by_cases hl : (H (b.dig b.nonce)).length = 64
      · simp only [calculate_hash, hp, if_false, hl, if_true] at h
        exact ih _ b' h
      · simp [calculate_hash, hp, hl] at h

lemma calc_frame (H : List Char → List Nat) :
    ∀ (fuel : Nat) (b b' : Block),
      calculate_hash H fuel b = some (Except.ok b') →
        b'.index = b.index ∧ b'.prev_hash = b.prev_hash ∧
        b'.transactions = b.transactions ∧ b'.time = b.time := by
  intro fuel
  induction fuel with
  | zero => intro b b' h; simp [calculate_hash] at h
  | succ fuel ih =>
    intro b b' h
    by_cases hp : b.hash.take 2 = [69, 69]
    · simp only [calculate_hash, hp, if_true, Option.some.injEq] at h
      cases h
      exact ⟨rfl, rfl, rfl, rfl⟩
    · by_cases hl : (H (b.dig b.nonce)).length = 64
      · simp only [calculate_hash, hp, if_false, hl, if_true] at h
        exact ih { b with hash := H (b.dig b.nonce), nonce := b.nonce + 1 } b' h
      · simp [calculate_hash, hp, hl] at h

/-- Full characterisation of a successful run of the sealing loop: either
the entry hash already satisfied the predicate and the block is returned
unchanged, or the loop ran, the final nonce strictly exceeds the entry
nonce, the final hash is the digest of the composed input at the final
nonce minus one, and every nonce between the entry nonce and that one
failed the predicate. -/
lemma calc_run (H : List Char → List Nat) :
    ∀ (fuel : Nat) (b b' : Block),
      calculate_hash H fuel b = some (Except.ok b') →
      (b.hash.take 2 = [69, 69] ∧ b' = b) ∨
      (b.hash.take 2 ≠ [69, 69] ∧ b.nonce < b'.nonce ∧
        b'.hash = H (Block.dig b (b'.nonce - 1)) ∧
        (∀ m, b.nonce ≤ m → m < b'.nonce - 1 → (H (Block.dig b m)).take 2 ≠ [69, 69])) := by
  intro fuel
  induction fuel with
  | zero => intro b b' h; simp [calculate_hash] at h
  | succ fuel ih =>
    intro b b' h
    by_cases hp : b.hash.take 2 = [69, 69]
    · simp only [calculate_hash, hp, if_true, Option.some.injEq] at h
      cases h
      exact Or.inl ⟨hp, rfl⟩
    · by_cases hl : (H (b.dig b.nonce)).length = 64
      · simp only [calculate_hash, hp, if_false, hl, if_true] at h
        rcases ih { b with hash := H (b.dig b.nonce), nonce := b.nonce + 1 } b' h with
          ⟨hp2, rfl⟩ | ⟨hp2, hlt, hhash, hall⟩
        · refine Or.inr ⟨hp, Nat.lt_succ_self _, ?_, ?_⟩
          · simp
          · intro m hm1 hm2
            simp at hm2
            omega
        · refine Or.inr ⟨hp, by simp at hlt; omega, ?_, ?_⟩
          · rw [hhash, dig_update]
          · intro m hm1 hm2
            rcases Nat.eq_or_lt_of_le hm1 with hm | hm
            · subst hm
              exact hp2
            · have := hall m (by simp; omega) hm2
              rwa [dig_update] at this
      · simp [calculate_hash, hp, hl] at h

/-- If the digest at some nonce `b.nonce + k` satisfies the predicate and
the hash primitive keeps its 64-byte contract, the loop returns a block
within `k + 2` iterations. -/
lemma calc_succeeds (H : List Char → List Nat) (Hlen : ∀ s, (H s).length = 64) :
    ∀ (k : Nat) (b : Block), (H (Block.dig b (b.nonce + k))).take 2 = [69, 69] →
      ∃ b', calculate_hash H (k + 2) b = some (Except.ok b') := by
  intro k
  induction k with
  | zero =>
    intro b hk
    by_cases hp : b.hash.take 2 = [69, 69]
    · exact ⟨b, by simp [calculate_hash, hp]⟩
    · refine ⟨{ b with hash := H (b.dig b.nonce), nonce := b.nonce + 1 }, ?_⟩
      have hk0 : (H (b.dig b.nonce)).take 2 = [69, 69] := by simpa using hk
      simp [calculate_hash, hp, Hlen, hk0]
  | succ k ih =>
    intro b hk
    by_cases hp : b.hash.take 2 = [69, 69]
    · exact ⟨b, by simp [calculate_hash, hp]⟩
    · have hk2 : (H (Block.dig { b with hash := H (b.dig b.nonce), nonce := b.nonce + 1 }
          (({ b with hash := H (b.dig b.nonce), nonce := b.nonce + 1 } : Block).nonce + k))).take 2 = [69, 69] := by
        rw [dig_update]
        have : b.nonce + 1 + k = b.nonce + (k + 1) := by omega
        simpa [this] using hk
      obtain ⟨b', hb'⟩ := ih { b with hash := H (b.dig b.nonce), nonce := b.nonce + 1 } hk2
      refine ⟨b', ?_⟩
      have : k + 1 + 2 = (k + 2) + 1 := by omega
      rw [this]
      simpa [calculate_hash, hp, Hlen] using hb'

/-- Under the 64-byte contract of the hash primitive the sealing loop
never reaches the fatal abort. -/
lemma calc_no_error (H : List Char → List Nat) (Hlen : ∀ s, (H s).length = 64) :
    ∀ (fuel : Nat) (b : Block) (e : String),
      calculate_hash H fuel b ≠ some (Except.error e) := by
  intro fuel
  induction fuel with
  | zero => intro b e h; simp [calculate_hash] at h
  | succ fuel ih =>
    intro b e h
    by_cases hp : b.hash.take 2 = [69, 69]
    · simp [calculate_hash, hp] at h
    · simp only [calculate_hash, hp, if_false, Hlen, if_true] at h
      exact ih _ e h

/-- The only abort of the sealing loop carries the source's panic message
and is caused by a hash output whose length is not 64. -/
lemma calc_error (H : List Char → List Nat) :
    ∀ (fuel : Nat) (b : Block) (e : String),
      calculate_hash H fuel b = some (Except.error e) →
        e = "Error generating the SHA-512 hash of the block." ∧
        ∃ n, (H (Block.dig b n)).length ≠ 64 := by
  intro fuel
  induction fuel with
  | zero => intro b e h; simp [calculate_hash] at h
  | succ fuel ih =>
    intro b e h
    by_cases hp : b.hash.take 2 = [69, 69]
    · simp [calculate_hash, hp] at h
    · by_cases hl : (H (b.dig b.nonce)).length = 64
      · simp only [calculate_hash, hp, if_false, hl, if_true] at h
        obtain ⟨he, n, hn⟩ := ih { b with hash := H (b.dig b.nonce), nonce := b.nonce + 1 } e h
        rw [dig_update] at hn
        exact ⟨he, n, hn⟩
      · simp only [calculate_hash, hp, if_false, hl, Option.some.injEq] at h
        refine ⟨?_, b.nonce, hl⟩
        cases h
        rfl

/-- Under the 64-byte contract, a sealed block's hash has length 64
whenever the entry hash does. -/
lemma calc_hash_len (H : List Char → List Nat) (Hlen : ∀ s, (H s).length = 64) :
    ∀ (fuel : Nat) (b b' : Block), b.hash.length = 64 →
      calculate_hash H fuel b = some (Except.ok b') → b'.hash.length = 64 := by
  intro fuel
  induction fuel with
  | zero => intro b b' _ h; simp [calculate_hash] at h
  | succ fuel ih =>
    intro b b' hblen h
    by_cases hp : b.hash.take 2 = [69, 69]
    · simp only [calculate_hash, hp, if_true, Option.some.injEq] at h
      cases h
      exact hblen
    · simp only [calculate_hash, hp, if_false, Hlen, if_true] at h
      exact ih { b with hash := H (b.dig b.nonce), nonce := b.nonce + 1 } b' (Hlen _) h

/-! ### Concrete instances for witnesses and counterexamples -/

/-- A concrete (injected) timestamp rendering. -/
def sampleTime : List Char := "2020-01-01 00:00:00 UTC".data

/-- The genesis sentinel: 64 zero bytes. -/
def zeros64 : List Nat := List.replicate 64 0

/-- A 64-byte-output hash stand-in whose output always satisfies the
proof-of-work predicate. -/
def Hok : List Char → List Nat := fun _ => 69 :: 69 :: List.replicate 62 0

/-- A 64-byte-output hash stand-in that always satisfies the predicate
and whose third output byte depends on the input's last character, so
consecutive nonces yield different digests. -/
def Hcex : List Char → List Nat := fun s => 69 :: 69 :: (s.getLastD 'x').toNat :: List.replicate 61 0

/-- The block a run of `Block.new` under `Hok` produces. -/
def bOk : Block :=
  { index := 0, prev_hash := zeros64, transactions := [], nonce := 1,
    time := sampleTime, hash := Hok (digestInput 0 zeros64 [] sampleTime 0) }

/-- The block a run of `Block.new` under `Hcex` produces. -/
def bCex : Block :=
  { index := 0, prev_hash := zeros64, transactions := [], nonce := 1,
    time := sampleTime, hash := Hcex (digestInput 0 zeros64 [] sampleTime 0) }

/-- A transaction with digest `[1]`. -/
def tA : Transaction := ⟨[1]⟩

/-- A transaction with digest `[2]`. -/
def tB : Transaction := ⟨[2]⟩

lemma take_two_eq {l : List Nat} (h : l.take 2 = [69, 69]) :
    l[0]? = some 69 ∧ l[1]? = some 69 := by
  cases l with
  | nil => simp at h
  | cons a t =>
    cases t with
    | nil => simp at h
    | cons b t' =>
      simp only [List.take, List.cons.injEq] at h
      simp [h.1, h.2.1]

/-! ### The claims -/

/-- C1: every Block value returned by `Block::new` (and hence by
`Block::default`) stores a hash whose first byte is 69 and whose second
byte is 69; no block with a non-satisfying hash is observable outside the
sealing routine (the loop only returns once the predicate holds). -/
theorem C1_sealed_block_satisfies_marker (H : List Char → List Nat) (fuel index : Nat)
    (prev_hash : List Nat) (txs : List Transaction) (time : List Char) (b : Block)
    (h : Block.new H fuel index prev_hash txs time = some (Except.ok b)) :
    b.hash.take 2 = [69, 69] ∧ b.hash[0]? = some 69 ∧ b.hash[1]? = some 69 := by
  have hpred := calc_ok_pred H fuel _ b h
  exact ⟨hpred, take_two_eq hpred⟩

/-- C1 witness: a concrete sealed block satisfies the marker predicate. -/
theorem C1_witness :
    bOk.hash.take 2 = [69, 69] ∧ bOk.hash[0]? = some 69 ∧ bOk.hash[1]? = some 69 :=
  C1_sealed_block_satisfies_marker Hok 2 0 zeros64 [] sampleTime bOk (by decide)

/-- C2 counterexample: under a 64-byte-output hash primitive whose output
depends on its input, a sealed block's stored hash differs from the
primitive applied to the digest input at the block's stored nonce field
(the loop increments the nonce after storing the accepted hash). -/
theorem C2_counterexample :
    Block.new Hcex 2 0 zeros64 [] sampleTime = some (Except.ok bCex) ∧
    (Hcex (digestInput 0 zeros64 [] sampleTime 0)).length = 64 ∧
    (Hcex (digestInput 0 zeros64 [] sampleTime 1)).length = 64 ∧
    bCex.hash ≠ Hcex (digestInput 0 zeros64 [] sampleTime bCex.nonce) := by
  decide

/-- C2 (amended): for every sealed Block, the stored hash equals the hash
primitive applied to the byte-serialization composed from the block's
index, prev_hash, transaction-digest accumulator, time, and the stored
nonce MINUS ONE; that value, not the stored nonce itself, is the nonce at
which the predicate first held. -/
theorem C2_amended_hash_is_digest_at_nonce_minus_one (H : List Char → List Nat)
    (fuel index : Nat) (prev_hash : List Nat) (txs : List Transaction) (time : List Char)
    (b : Block) (h : Block.new H fuel index prev_hash txs time = some (Except.ok b)) :
    1 ≤ b.nonce ∧
    b.hash = H (digestInput index prev_hash txs time (b.nonce - 1)) ∧
    (H (digestInput index prev_hash txs time (b.nonce - 1))).take 2 = [69, 69] ∧
    ∀ m, m < b.nonce - 1 → (H (digestInput index prev_hash txs time m)).take 2 ≠ [69, 69] := by
  have hpred := calc_ok_pred H fuel _ b h
  rcases calc_run H fuel (Block.init index prev_hash txs time) b h with ⟨hp, _⟩ | ⟨_, hlt, hhash, hall⟩
  · have hz : (Block.init index prev_hash txs time).hash = List.replicate 64 0 := rfl
    rw [hz] at hp
    exact absurd hp (by decide)
  · have hhash' : b.hash = H (digestInput index prev_hash txs time (b.nonce - 1)) := hhash
    refine ⟨hlt, hhash', ?_, ?_⟩
    · rw [← hhash']
      exact hpred
    · intro m hm
      exact hall m (Nat.zero_le m) hm

/-- C2 amended witness: at a concrete run, the stored nonce is positive
and the stored hash is the digest at the stored nonce minus one. -/
theorem C2_amended_witness :
    1 ≤ bOk.nonce ∧ bOk.hash = Hok (digestInput 0 zeros64 [] sampleTime (bOk.nonce - 1)) :=
  ⟨(C2_amended_hash_is_digest_at_nonce_minus_one Hok 2 0 zeros64 [] sampleTime bOk (by decide)).1,
   (C2_amended_hash_is_digest_at_nonce_minus_one Hok 2 0 zeros64 [] sampleTime bOk (by decide)).2.1⟩

/-- C3 counterexample: a run in which nonce 0 is accepted on the very
first attempt (zero failed attempts) still records nonce 1, so the
recorded nonce is not the number of failed attempts. -/
theorem C3_counterexample :
    Block.new Hok 2 0 zeros64 [] sampleTime = some (Except.ok bOk) ∧
    (Hok (digestInput 0 zeros64 [] sampleTime 0)).take 2 = [69, 69] ∧
    bOk.nonce ≠ 0 := by
  decide

/-- C3 (amended): the nonce recorded in a sealed block equals the number
of failed hashing attempts before the accepted attempt PLUS ONE (the
attempts at nonces 0 up to recorded nonce minus two fail, the attempt at
recorded nonce minus one is accepted), and nonce 0 is the first nonce
tried (the pre-seal block starts at nonce 0). -/
theorem C3_amended_nonce_is_failed_attempts_plus_one (H : List Char → List Nat)
    (fuel index : Nat) (prev_hash : List Nat) (txs : List Transaction) (time : List Char)
    (b : Block) (h : Block.new H fuel index prev_hash txs time = some (Except.ok b)) :
    (Block.init index prev_hash txs time).nonce = 0 ∧
    1 ≤ b.nonce ∧
    (H (digestInput index prev_hash txs time (b.nonce - 1))).take 2 = [69, 69] ∧
    ∀ m, m < b.nonce - 1 → (H (digestInput index prev_hash txs time m)).take 2 ≠ [69, 69] := by
  have hpred := calc_ok_pred H fuel _ b h
  rcases calc_run H fuel (Block.init index prev_hash txs time) b h with ⟨hp, _⟩ | ⟨_, hlt, hhash, hall⟩
  · have hz : (Block.init index prev_hash txs time).hash = List.replicate 64 0 := rfl
    rw [hz] at hp
    exact absurd hp (by decide)
  · have hhash' : b.hash = H (digestInput index prev_hash txs time (b.nonce - 1)) := hhash
    refine ⟨rfl, hlt, ?_, ?_⟩
    · rw [← hhash']
      exact hpred
    · intro m hm
      exact hall m (Nat.zero_le m) hm

/-- C3 amended witness: at a concrete first-attempt-accepted run, the
pre-seal nonce is 0, the recorded nonce is 1, and the attempt at the
recorded nonce minus one satisfied the predicate. -/
theorem C3_amended_witness :
    (Block.init 0 zeros64 [] sampleTime).nonce = 0 ∧ 1 ≤ bOk.nonce ∧
    (Hok (digestInput 0 zeros64 [] sampleTime (bOk.nonce - 1))).take 2 = [69, 69] :=
  ⟨(C3_amended_nonce_is_failed_attempts_plus_one Hok 2 0 zeros64 [] sampleTime bOk (by decide)).1,
   (C3_amended_nonce_is_failed_attempts_plus_one Hok 2 0 zeros64 [] sampleTime bOk (by decide)).2.1,
   (C3_amended_nonce_is_failed_attempts_plus_one Hok 2 0 zeros64 [] sampleTime bOk (by decide)).2.2.1⟩

/-- C5 (implicit claim): in every Block returned by `Block::new`, the
stored nonce is at least 1 and the stored hash equals the hash primitive
applied to the composed input at nonce value stored nonce minus one,
because the loop increments the nonce after storing the hash even on the
accepted attempt. -/
theorem C5_nonce_positive_and_hash_at_nonce_minus_one (H : List Char → List Nat)
    (fuel index : Nat) (prev_hash : List Nat) (txs : List Transaction) (time : List Char)
    (b : Block) (h : Block.new H fuel index prev_hash txs time = some (Except.ok b)) :
    1 ≤ b.nonce ∧ b.hash = H (digestInput index prev_hash txs time (b.nonce - 1)) := by
  rcases calc_run H fuel (Block.init index prev_hash txs time) b h with ⟨hp, _⟩ | ⟨_, hlt, hhash, _⟩
  · have hz : (Block.init index prev_hash txs time).hash = List.replicate 64 0 := rfl
    rw [hz] at hp
    exact absurd hp (by decide)
  · exact ⟨hlt, hhash⟩

/-- C5 witness: a concrete sealed block has nonce 1 and its hash is the
digest at nonce 0. -/
theorem C5_witness :
    1 ≤ bCex.nonce ∧ bCex.hash = Hcex (digestInput 0 zeros64 [] sampleTime (bCex.nonce - 1)) :=
  C5_nonce_positive_and_hash_at_nonce_minus_one Hcex 2 0 zeros64 [] sampleTime bCex (by decide)

/-- C4: the sealing loop has no iteration bound: under the hash
primitive's 64-byte contract, `Block::new` terminates (for some fuel) if
and only if some nonce makes the digest's first two bytes `[69, 69]`;
there is no error ("no block found") result; and on termination the
accepted nonce — the stored nonce minus one — is the least satisfying
nonce (nonces are tried in increasing order from 0). -/
theorem C4_terminates_iff_success_nonce_exists (H : List Char → List Nat) (index : Nat)
    (prev_hash : List Nat) (txs : List Transaction) (time : List Char)
    (Hlen : ∀ s, (H s).length = 64) :
    ((∃ fuel b, Block.new H fuel index prev_hash txs time = some (Except.ok b)) ↔
      ∃ n, (H (digestInput index prev_hash txs time n)).take 2 = [69, 69]) ∧
    (∀ fuel e, Block.new H fuel index prev_hash txs time ≠ some (Except.error e)) ∧
    (∀ fuel b, Block.new H fuel index prev_hash txs time = some (Except.ok b) →
      (H (digestInput index prev_hash txs time (b.nonce - 1))).take 2 = [69, 69] ∧
      ∀ m, m < b.nonce - 1 → (H (digestInput index prev_hash txs time m)).take 2 ≠ [69, 69]) := by
  have hmin : ∀ fuel b, Block.new H fuel index prev_hash txs time = some (Except.ok b) →
      (H (digestInput index prev_hash txs time (b.nonce - 1))).take 2 = [69, 69] ∧
      ∀ m, m < b.nonce - 1 → (H (digestInput index prev_hash txs time m)).take 2 ≠ [69, 69] := by
    intro fuel b h
    have hpred := calc_ok_pred H fuel _ b h
    rcases calc_run H fuel (Block.init index prev_hash txs time) b h with ⟨hp, _⟩ | ⟨_, _, hhash, hall⟩
    · have hz : (Block.init index prev_hash txs time).hash = List.replicate 64 0 := rfl
      rw [hz] at hp
      exact absurd hp (by decide)
    · have hhash' : b.hash = H (digestInput index prev_hash txs time (b.nonce - 1)) := hhash
      constructor
      · rw [← hhash']
        exact hpred
      · intro m hm
        exact hall m (Nat.zero_le m) hm
  refine ⟨⟨?_, ?_⟩, ?_, hmin⟩
  · rintro ⟨fuel, b, h⟩
    exact ⟨b.nonce - 1, (hmin fuel b h).1⟩
  · rintro ⟨n, hn⟩
    have h0 : (H (Block.dig (Block.init index prev_hash txs time)
        ((Block.init index prev_hash txs time).nonce + n))).take 2 = [69, 69] := by
      show (H (digestInput index prev_hash txs time (0 + n))).take 2 = [69, 69]
      rw [Nat.zero_add]
      exact hn
    obtain ⟨b', hb'⟩ := calc_succeeds H Hlen n (Block.init index prev_hash txs time) h0
    exact ⟨n + 2, b', hb'⟩
  · intro fuel e
    exact calc_no_error H Hlen fuel (Block.init index prev_hash txs time) e

/-- C4 witness: under an always-succeeding 64-byte primitive, a concrete
run returns no error and its accepted nonce satisfies the predicate. -/
theorem C4_witness :
    Block.new Hok 2 0 zeros64 [] sampleTime ≠ some (Except.error "boom") ∧
    (Hok (digestInput 0 zeros64 [] sampleTime (bOk.nonce - 1))).take 2 = [69, 69] :=
  ⟨(C4_terminates_iff_success_nonce_exists Hok 0 zeros64 [] sampleTime (fun _ => rfl)).2.1 2 "boom",
   ((C4_terminates_iff_success_nonce_exists Hok 0 zeros64 [] sampleTime (fun _ => rfl)).2.2 2 bOk
     (by decide)).1⟩

/-- C6: `Block::default()` invokes the sealing constructor on exactly
index 0, an all-zero 64-byte prev_hash, and the empty transaction list;
hence a genesis block has index 0, a marker-satisfying hash, and (under
the primitive's contract) a 64-byte hash. -/
theorem C6_default_equals_sealing_genesis_arguments (H : List Char → List Nat)
    (fuel : Nat) (time : List Char) :
    Block.defaultBlock H fuel time = Block.new H fuel 0 (List.replicate 64 0) [] time ∧
    ∀ b, Block.defaultBlock H fuel time = some (Except.ok b) →
      Block.indexAccessor b = 0 ∧ b.index = 0 ∧ b.hash.take 2 = [69, 69] ∧
      ((∀ s, (H s).length = 64) → b.hash.length = 64) := by
  refine ⟨rfl, ?_⟩
  intro b h
  have hframe := calc_frame H fuel (Block.init 0 (List.replicate 64 0) [] time) b h
  have hidx : b.index = 0 := hframe.1
  refine ⟨hidx, hidx, calc_ok_pred H fuel _ b h, ?_⟩
  intro Hlen
  exact calc_hash_len H Hlen fuel (Block.init 0 (List.replicate 64 0) [] time) b
    (by simp [Block.init]) h

/-- C6 witness: a concrete genesis run yields index 0, a marker-passing
hash of length 64. -/
theorem C6_witness :
    Block.indexAccessor bOk = 0 ∧ bOk.index = 0 ∧ bOk.hash.take 2 = [69, 69] ∧
    bOk.hash.length = 64 :=
  let X := (C6_default_equals_sealing_genesis_arguments Hok 2 sampleTime).2 bOk (by decide)
  ⟨X.1, X.2.1, X.2.2.1, X.2.2.2 (fun _ => rfl)⟩

/-- C7: for every two transactions with distinct digests, folding the
transaction-digest accumulator over `[t1, t2]` produces a different
content-digest string than folding over `[t2, t1]`. -/
theorem C7_transaction_order_changes_digest (t1 t2 : Transaction)
    (hne : t1.hash ≠ t2.hash) :
    transactionsHashes [t1, t2] ≠ transactionsHashes [t2, t1] := by
  intro heq
  rw [transactionsHashes_pair, transactionsHashes_pair] at heq
  injection heq with _ heq
  injection heq with _ heq
  injection heq with _ heq
  injection heq with _ heq
  injection heq with _ heq
  have hs := splitAt_marker (fun c => !(c == '"'))
    (u8ArrayDebug t1.hash) (u8ArrayDebug t2.hash)
    ('"' :: u8ArrayDebug t2.hash) ('"' :: u8ArrayDebug t1.hash)
    (fun c hc => by
      have hcq := (u8ArrayDebug_safe t1.hash c hc).1
      simp [beq_iff_eq, hcq])
    (fun c hc => by
      have hcq := (u8ArrayDebug_safe t2.hash c hc).1
      simp [beq_iff_eq, hcq])
    (fun c hc => by cases Option.some.inj hc; decide)
    (fun c hc => by cases Option.some.inj hc; decide)
    heq
  exact hne (u8ArrayDebug_injective hs.1)

/-- C7 witness: two concrete transactions with distinct digests yield
distinct accumulator strings in the two orders. -/
theorem C7_witness : transactionsHashes [tA, tB] ≠ transactionsHashes [tB, tA] :=
  C7_transaction_order_changes_digest tA tB (by decide)

/-- C8: across iterations of the sealing loop only the nonce and the
candidate hash change — index, prev_hash, transactions and time are the
values captured at construction — and the accessors return copies of the
final block's fields without modifying anything (the embedding is pure,
mirroring the immutability of the returned Block). -/
theorem C8_only_nonce_and_hash_change (H : List Char → List Nat) (fuel : Nat)
    (b b' : Block) (h : calculate_hash H fuel b = some (Except.ok b')) :
    b'.index = b.index ∧ b'.prev_hash = b.prev_hash ∧
    b'.transactions = b.transactions ∧ b'.time = b.time ∧
    Block.hashAccessor b' = b'.hash ∧ Block.indexAccessor b' = b'.index := by
  have hframe := calc_frame H fuel b b' h
  exact ⟨hframe.1, hframe.2.1, hframe.2.2.1, hframe.2.2.2, rfl, rfl⟩

/-- C8 witness: a concrete run keeps index, prev_hash, transactions and
time fixed. -/
theorem C8_witness :
    bOk.index = (Block.init 0 zeros64 [] sampleTime).index ∧
    bOk.time = (Block.init 0 zeros64 [] sampleTime).time ∧
    Block.hashAccessor bOk = bOk.hash :=
  let X := C8_only_nonce_and_hash_change Hok 2 (Block.init 0 zeros64 [] sampleTime) bOk (by decide)
  ⟨X.1, X.2.2.2.1, X.2.2.2.2.1⟩

/-- C9: the only failure mode of sealing is the fatal abort with the
source's panic message, triggered exactly when the hash primitive's
output length is not 64; under the 64-byte SHA-512 contract the abort is
unreachable, so sealing never returns a malformed block and has no
recoverable error path. -/
theorem C9_only_failure_is_wrong_length_abort (H : List Char → List Nat) (fuel : Nat)
    (b : Block) :
    ((∀ s, (H s).length = 64) → ∀ e, calculate_hash H fuel b ≠ some (Except.error e)) ∧
    (∀ e, calculate_hash H fuel b = some (Except.error e) →
      e = "Error generating the SHA-512 hash of the block." ∧
      ∃ n, (H (digestInput b.index b.prev_hash b.transactions b.time n)).length ≠ 64) := by
  constructor
  · intro Hlen e
    exact calc_no_error H Hlen fuel b e
  · intro e h
    exact calc_error H fuel b e h

/-- C9 witness: under a contract-keeping primitive a concrete run does
not abort. -/
theorem C9_witness :
    calculate_hash Hok 2 (Block.init 0 zeros64 [] sampleTime) ≠
      some (Except.error "Error generating the SHA-512 hash of the block.") :=
  (C9_only_failure_is_wrong_length_abort Hok 2 (Block.init 0 zeros64 [] sampleTime)).1
    (fun _ => rfl) _

/-- C10: for fixed index, prev_hash, transactions and time, evaluating
the digest composition and the hash primitive at a given nonce is a pure
function: two blocks agreeing on those fields (whatever their current
nonce and hash fields) produce identical digest inputs and identical
hash outputs at every nonce. -/
theorem C10_digest_and_hash_are_pure (H : List Char → List Nat) (b1 b2 : Block) (n : Nat)
    (hi : b1.index = b2.index) (hp : b1.prev_hash = b2.prev_hash)
    (ht : b1.transactions = b2.transactions) (htm : b1.time = b2.time) :
    digestInput b1.index b1.prev_hash b1.transactions b1.time n =
      digestInput b2.index b2.prev_hash b2.transactions b2.time n ∧
    H (digestInput b1.index b1.prev_hash b1.transactions b1.time n) =
      H (digestInput b2.index b2.prev_hash b2.transactions b2.time n) := by
  rw [hi, hp, ht, htm]
  exact ⟨rfl, rfl⟩

/-- C10 witness: two concrete blocks differing only in their hash field
produce the same digest input at nonce 5. -/
theorem C10_witness :
    digestInput bOk.index bOk.prev_hash bOk.transactions bOk.time 5 =
      digestInput bCex.index bCex.prev_hash bCex.transactions bCex.time 5 :=
  (C10_digest_and_hash_are_pure Hok bOk bCex 5 rfl rfl rfl rfl).1

end BlockchainSpec
